import Mathlib

/-!
Verification development for the CBG-Agent pipeline.

The Python sources are shallowly embedded: strings are `List Char`,
per-page PDF text is a `List (List Char)`, decoded JSON is the inductive
`JVal`, and fallible code returns `Except`/`Option`.  Each definition is
translated from the corresponding function in `src/base_agent/`, with the
source file and function named in its doc comment.  External collaborators
(PyMuPDF, the Gemini client, `json.loads`, python-pptx, GCS) enter the
model only through their outputs, as data passed to the embedded code.
-/

namespace CBG

/-- Whitespace as recognised by Python's `str.strip` and the regex class
`\s`, modelled on the ASCII range (the only whitespace the pipeline's
data can contain after its own filtering). -/
def pySpace (c : Char) : Bool :=
  c = ' ' || c = '\t' || c = '\n' || c = '\r' || c = Char.ofNat 11 || c = Char.ofNat 12

/-- Python `str.lstrip()`. -/
def lstripWs (l : List Char) : List Char := l.dropWhile pySpace

/-- Python `str.rstrip()`. -/
def rstripWs (l : List Char) : List Char := (l.reverse.dropWhile pySpace).reverse

/-- Python `str.strip()`. -/
def pyStrip (l : List Char) : List Char := rstripWs (lstripWs l)

/-- Splitting a string at every separator character (Python `str.split`
semantics with empty pieces kept); the result is always nonempty. -/
def splitSep (p : Char → Bool) (l : List Char) : List (List Char) :=
  l.foldr
    (fun c acc =>
      if p c then [] :: acc
      else
        match acc with
        | [] => [[c]]
        | w :: ws => (c :: w) :: ws)
    [[]]

/-- Joining pieces with a single separator character. -/
def joinSep (sep : Char) : List (List Char) → List Char
  | [] => []
  | [w] => w
  | w :: ws => w ++ sep :: joinSep sep ws

/-- The job-card marker `JD_HEADER` from `src/base_agent/tools/pdf_parser.py`. -/
def jdHeader : List Char := "بطاقة الوصف الوظيفي".data

/-- The placeholder title used by `_detect_job_segments` when no title is found. -/
def defaultTitle : List Char := "غير محدد".data

/-- Whether `pat` occurs at the very beginning of the second list. -/
def leadsWith : List Char → List Char → Bool
  | [], _ => true
  | _ :: _, [] => false
  | p :: ps, c :: cs => p = c && leadsWith ps cs

/-- Python's substring test `pat in l`. -/
def hasSeq (pat : List Char) : List Char → Bool
  | [] => leadsWith pat []
  | c :: t => leadsWith pat (c :: t) || hasSeq pat t

/-- Remainders of `r` after the greedy `\s*` consumes `k, k-1, …, 0`
characters of the maximal leading whitespace run, in Python's
backtracking order (longest first). -/
def wsBacktrack (r : List Char) : List (List Char) :=
  let k := (r.takeWhile pySpace).length
  (List.range (k + 1)).map (fun i => r.drop (k - i))

/-- Matching `(.+)` at the start of `r`: the greedy run of non-newline
characters, which must be nonempty. -/
def matchDotPlus (r : List Char) : Option (List Char) :=
  let y := r.takeWhile (fun c => c ≠ '\n')
  if y = [] then none else some y

/-- Matching `\s*(.+)` at the start of `r`; returns the captured group. -/
def matchWsDotPlus (r : List Char) : Option (List Char) :=
  (wsBacktrack r).findSome? matchDotPlus

/-- Matching `\s*\n\s*(.+)` at the start of `r`; returns the captured group. -/
def matchWsNlWsDotPlus (r : List Char) : Option (List Char) :=
  (wsBacktrack r).findSome? fun rest =>
    match rest with
    | c :: rest2 => if c = '\n' then matchWsDotPlus rest2 else none
    | [] => none

/-- Python `re.search(rf"{re.escape(pat)}\s*\n\s*(.+)", text)` from
`_detect_job_segments` in `src/base_agent/tools/pdf_parser.py`: leftmost
occurrence of the literal `pat` whose tail matches, returning group 1. -/
def regexTitleSearch (pat : List Char) : List Char → Option (List Char)
  | [] => if pat = [] then matchWsNlWsDotPlus [] else none
  | c :: t =>
    if leadsWith pat (c :: t) then
      match matchWsNlWsDotPlus ((c :: t).drop pat.length) with
      | some y => some y
      | none => regexTitleSearch pat t
    else regexTitleSearch pat t

/-- The stripped nonempty lines of a page, as built by
`_detect_job_segments`: `[ln.strip() for ln in page_texts[s].splitlines() if ln.strip()]`
(line separators are modelled as `\n`). -/
def pageLines (pageText : List Char) : List (List Char) :=
  ((splitSep (fun c => c = '\n') pageText).map pyStrip).filter (fun l => l ≠ [])

/-- Title extraction of `_detect_job_segments`
(`src/base_agent/tools/pdf_parser.py` lines 139-153): the line after the
header line when the header is its own line, the regex fallback only when
no stripped line equals the header, the placeholder otherwise. -/
def extractTitle (pageText : List Char) : List Char :=
  let lines := pageLines pageText
  match lines.findIdx? (fun l => l == jdHeader) with
  | some k =>
    if k + 1 < lines.length then pyStrip (lines.getD (k + 1) []) else defaultTitle
  | none =>
    match regexTitleSearch jdHeader pageText with
    | some m => pyStrip m
    | none => defaultTitle

/-- `JobSegment` from `src/base_agent/tools/pdf_parser.py`. -/
structure JobSegment where
  index : Nat
  page_start : Nat
  page_end : Nat
  title : List Char
deriving Repr, DecidableEq

/-- The pages whose extracted text contains the job-card marker:
`starts = [i for i, t in enumerate(page_texts) if JD_HEADER in t]`. -/
def markerPages (pageTexts : List (List Char)) : List Nat :=
  (pageTexts.enum.filter (fun p => hasSeq jdHeader p.2)).map Prod.fst

/-- The `(s, e)` page-bound pairs built by `_detect_job_segments`: each
start runs to the page before the next start, the last start to the last
page. -/
def segmentBounds (lastPage : Nat) : List Nat → List (Nat × Nat)
  | [] => []
  | [s] => [(s, lastPage)]
  | s :: s2 :: rest => (s, s2 - 1) :: segmentBounds lastPage (s2 :: rest)

/-- `_detect_job_segments` from `src/base_agent/tools/pdf_parser.py`
(lines 125-154). -/
def detect_job_segments (pageTexts : List (List Char)) : List JobSegment :=
  let starts := markerPages pageTexts
  if starts = [] then []
  else
    ((segmentBounds (pageTexts.length - 1) starts).enum).map
      (fun p =>
        { index := p.1, page_start := p.2.1, page_end := p.2.2,
          title := extractTitle (pageTexts.getD p.2.1 []) })

/-- Title extraction as claim C8 states it: the line after the header
line; whenever the line-splitting approach fails — either because the
header shares a line with the title or because no following line exists —
fall back to the regex search before settling on the placeholder. -/
def titleClaimC8 (pageText : List Char) : List Char :=
  let lines := pageLines pageText
  let fallback :=
    match regexTitleSearch jdHeader pageText with
    | some m => pyStrip m
    | none => defaultTitle
  match lines.findIdx? (fun l => l == jdHeader) with
  | some k =>
    match lines.get? (k + 1) with
    | some next => pyStrip next
    | none => fallback
  | none => fallback

/-- Title extraction as amended: the regex fallback runs only when no
stripped line equals the header (header and title share a line); when the
header is its own line but no line follows it, the title stays the
default placeholder without any regex attempt. -/
def titleAmendedC8 (pageText : List Char) : List Char :=
  let lines := pageLines pageText
  match lines.findIdx? (fun l => l == jdHeader) with
  | some k =>
    match lines.get? (k + 1) with
    | some next => pyStrip next
    | none => defaultTitle
  | none =>
    match regexTitleSearch jdHeader pageText with
    | some m => pyStrip m
    | none => defaultTitle

/-- The bullet-marker characters of the normalisation regex
`^\s*[-*••]\s*` shared by `_normalize_lines` in
`src/base_agent/tools/brain.py` (lines 50-68) and in
`src/base_agent/tools/competency_generator.py` (lines 64-92). -/
def bulletChar (c : Char) : Bool :=
  c = '-' || c = '*' || c = '•'

/-- Python `re.sub(r"^\s*[-*••]\s*", "", ln)`: the anchored pattern
matches at most once, removing one leading bullet marker together with
the whitespace around it; a line with no such marker is unchanged. -/
def stripLeadingBullet (l : List Char) : List Char :=
  match l.dropWhile pySpace with
  | c :: t => if bulletChar c then t.dropWhile pySpace else l
  | [] => l

/-- Per-line cleaning of `_normalize_lines`: drop one leading bullet
marker, remove every interior `•`, strip, and discard the line if it
comes out empty.  (`competency_generator._normalize_lines` strips once
more before removing `•`; removing `•` never exposes new end whitespace
that the final strip would not also remove, so the composite is the
same.) -/
def cleanLine (l : List Char) : Option (List Char) :=
  let l2 := (stripLeadingBullet l).filter (fun c => c ≠ '•')
  let l3 := pyStrip l2
  if l3 = [] then none else some l3

/-- `_normalize_lines` on a string input, shared by
`src/base_agent/tools/brain.py` and
`src/base_agent/tools/competency_generator.py`: split into lines, strip
each, drop empties, clean bullet markers per line, join with newlines
(`pageLines` is exactly the list comprehension both functions use). -/
def normalize_lines (x : List Char) : List Char :=
  joinSep '\n' ((pageLines x).filterMap cleanLine)

/-- Python `\w` on the Basic Latin range: ASCII letters, digits and the
underscore.  (Python's `\w` also matches letters of further scripts; the
Arabic block — the only other script this pipeline handles — is allowed
separately by `allowChar`, mirroring the source regex, and titles are
modelled over these two ranges.) -/
def asciiWord (c : Char) : Bool :=
  ('a' ≤ c && c ≤ 'z') || ('A' ≤ c && c ≤ 'Z') || ('0' ≤ c && c ≤ '9') || c = '_'

/-- The character class kept by
`re.sub(r"[^\w؀-ۿ\- ]+", "", job_title)` in
`default_output_name` (`src/base_agent/tools/competency_generator.py`
lines 243-253): word characters, the Arabic block, hyphen, space. -/
def allowChar (c : Char) : Bool :=
  asciiWord c || (0x600 ≤ c.toNat && c.toNat ≤ 0x6FF) || c = '-' || c = ' '

/-- Whitespace-run collapsing of `re.sub(r"\s+", "_", safe)`: every
maximal whitespace run becomes a single underscore (the flag records
whether a run is already open). -/
def collapseWsAux : Bool → List Char → List Char
  | _, [] => []
  | inRun, c :: rest =>
    if pySpace c then
      if inRun then collapseWsAux true rest
      else '_' :: collapseWsAux true rest
    else c :: collapseWsAux false rest

/-- `re.sub(r"\s+", "_", safe)` applied to a whole string. -/
def collapseWs (l : List Char) : List Char := collapseWsAux false l

/-- `default_output_name` from
`src/base_agent/tools/competency_generator.py` (lines 243-253): remove
every character outside `allowChar`, strip surrounding whitespace,
collapse whitespace runs to underscores, fall back to the stem `"job"`
when empty, then append `_`, the ISO date, and `.pptx`.  The
`when.isoformat()` of the external datetime library enters the model as
the string `dateIso`. -/
def default_output_name (jobTitle : List Char) (dateIso : List Char) : List Char :=
  let safe := pyStrip (jobTitle.filter allowChar)
  let safe2 := collapseWs safe
  let stem := if safe2 = [] then "job".data else safe2
  stem ++ '_' :: dateIso ++ ".pptx".data

/-- The allow-list exactly as claim C7 words it: the source script's
alphabet (the Arabic block), latin letters and digits, hyphens, and
spaces — no underscore. -/
def allowCharClaimC7 (c : Char) : Bool :=
  (0x600 ≤ c.toNat && c.toNat ≤ 0x6FF)
  || ('a' ≤ c && c ≤ 'z') || ('A' ≤ c && c ≤ 'Z') || ('0' ≤ c && c ≤ '9')
  || c = '-' || c = ' '

/-- The output-name function exactly as claim C7 words it: strip every
character outside the claimed allow-list, then collapse every whitespace
run to a single underscore, then append the ISO date suffix and the fixed
extension, with a placeholder stem when the stripped title is empty. -/
def outputNameClaimC7 (jobTitle : List Char) (dateIso : List Char) : List Char :=
  let stem0 := collapseWs (jobTitle.filter allowCharClaimC7)
  let stem := if stem0 = [] then "job".data else stem0
  stem ++ '_' :: dateIso ++ ".pptx".data

/-- The allow-list as amended: the underscore is a word character and is
kept too. -/
def allowCharAmendedC7 (c : Char) : Bool :=
  allowCharClaimC7 c || c = '_'

/-- The nonempty maximal whitespace-free words of a string. -/
def wsWords (l : List Char) : List (List Char) :=
  (splitSep pySpace l).filter (fun w => w ≠ [])

/-- The single leading underscore that collapsing produces on a string
that starts with whitespace and still contains a word. -/
def wsLead (t : List Char) : List Char :=
  match t with
  | c :: _ => if pySpace c && !(wsWords t).isEmpty then ['_'] else []
  | [] => []

/-- The output-name function as amended: the allow-list additionally
also keeps the underscore, and surrounding whitespace is trimmed before the
runs collapse — equivalently, the whitespace-separated words of the
stripped title are joined with single underscores. -/
def outputNameAmendedC7 (jobTitle : List Char) (dateIso : List Char) : List Char :=
  let ws := wsWords (jobTitle.filter allowCharAmendedC7)
  let stem := if ws = [] then "job".data else joinSep '_' ws
  stem ++ '_' :: dateIso ++ ".pptx".data

/-- Decoded JSON values, the output shape of Python's `json.loads` (an
external collaborator): the model receives each synthesizer response
already decoded, with `Option JVal` representing a possible
`json.JSONDecodeError` (`none`).  Numbers are modelled as integers;
object keys are unique, as `json.loads` resolves duplicates. -/
inductive JVal where
  | s (v : List Char)
  | num (n : Int)
  | b (v : Bool)
  | null
  | arr (items : List JVal)
  | obj (fields : List (List Char × JVal))
deriving Repr

/-- Python `dict.get` on a decoded JSON object. -/
def jLookup (fields : List (List Char × JVal)) (k : List Char) : Option JVal :=
  (fields.find? (fun p => p.1 == k)).map (fun p => p.2)

mutual
/-- Python `repr` of a decoded-JSON value, which `str` delegates to for
values nested inside containers.  String escaping is not modelled: the
strings this pipeline meets contain no quotes, backslashes or control
characters. -/
def jsonRepr : JVal → List Char
  | .s v => Char.ofNat 39 :: v ++ [Char.ofNat 39]
  | .num n => (toString n).data
  | .b true => "True".data
  | .b false => "False".data
  | .null => "None".data
  | .arr items => '[' :: jsonReprList items ++ [']']
  | .obj fields => Char.ofNat 123 :: jsonReprFields fields ++ [Char.ofNat 125]

def jsonReprList : List JVal → List Char
  | [] => []
  | [x] => jsonRepr x
  | x :: xs => jsonRepr x ++ ", ".data ++ jsonReprList xs

def jsonReprFields : List (List Char × JVal) → List Char
  | [] => []
  | [(k, v)] => (Char.ofNat 39 :: k ++ [Char.ofNat 39]) ++ ": ".data ++ jsonRepr v
  | (k, v) :: xs =>
      (Char.ofNat 39 :: k ++ [Char.ofNat 39]) ++ ": ".data ++ jsonRepr v
        ++ ", ".data ++ jsonReprFields xs
end

/-- Python `str` of a decoded-JSON value. -/
def jsonStr : JVal → List Char
  | .s v => v
  | v => jsonRepr v

/-- `_normalize_lines` as the pydantic before-validator receives it: a
decoded JSON value.  `None` gives the empty string; a list normalises
the `str` of its elements one item per line; anything else is `str`-ed
and processed line by line. -/
def normalizeJ : JVal → List Char
  | .null => []
  | .arr items =>
      joinSep '\n'
        ((((items.map (fun x => pyStrip (jsonStr x))).filter
            (fun l => l ≠ []))).filterMap cleanLine)
  | v => normalize_lines (jsonStr v)

/-- `DEFAULT_COMP_TYPE` from `src/base_agent/tools/brain.py`. -/
def DEFAULT_COMP_TYPE : List Char := "الكفاءة الفنية التخصصية".data

/-- `ClarificationNeeded` from `src/base_agent/tools/brain.py`
(`needs_clarification` is the literal `True` and is not stored). -/
structure ClarificationNeeded where
  candidates : List (List Char)
  question : List Char
  reason : Option (List Char)
deriving Repr, DecidableEq

/-- `CompetencyTopic` from `src/base_agent/tools/brain.py`, with the
four level texts already normalised by the before-validator. -/
structure CompetencyTopicR where
  title : List Char
  desc : List Char
  expert : List Char
  advanced : List Char
  intermediate : List Char
  beginner : List Char
deriving Repr, DecidableEq

/-- `CompetencyJob` from `src/base_agent/tools/brain.py`. -/
structure CompetencyJobR where
  competency_name : List Char
  definition : List Char
  comp_type : List Char
  job_group : List Char
  department : List Char
  topics : List CompetencyTopicR
deriving Repr, DecidableEq

/-- Sequential element-wise validation, as a Python list comprehension
over a validator that can raise: the first failure fails the whole
list. -/
def mapOpt {α β : Type} (f : α → Option β) : List α → Option (List β)
  | [] => some []
  | x :: xs => (f x).bind fun y => (mapOpt f xs).map fun ys => y :: ys

/-- Validation of a decoded JSON value against a required pydantic `str`
field with the given `min_length` (pydantic v2 coerces no other JSON
type into `str`). -/
def vStr (minLen : Nat) : Option JVal → Option (List Char)
  | some (.s v) => if minLen ≤ v.length then some v else none
  | _ => none

/-- The `comp_type` before-validator `(v or "").strip() or DEFAULT`: an
absent field takes the pydantic default; `None` and falsy values fall
back to the default; a string is stripped, the default replacing an
empty result; a truthy non-string raises inside the validator (`.strip`
on a non-str), failing validation. -/
def vCompType : Option JVal → Option (List Char)
  | none => some DEFAULT_COMP_TYPE
  | some v =>
    match v with
    | .s w =>
        let w2 := pyStrip w
        some (if w2 = [] then DEFAULT_COMP_TYPE else w2)
    | .null => some DEFAULT_COMP_TYPE
    | .b false => some DEFAULT_COMP_TYPE
    | .b true => none
    | .num n => if n = 0 then some DEFAULT_COMP_TYPE else none
    | .arr [] => some DEFAULT_COMP_TYPE
    | .arr (_ :: _) => none
    | .obj [] => some DEFAULT_COMP_TYPE
    | .obj (_ :: _) => none

/-- `CompetencyTopic.model_validate` on a decoded JSON value: `title`
and `desc` are required strings of minimal length, the four level texts
are required fields normalised by `_normalize_lines`. -/
def validateTopic (j : JVal) : Option CompetencyTopicR :=
  match j with
  | .obj fields =>
    match vStr 2 (jLookup fields "title".data), vStr 6 (jLookup fields "desc".data),
        jLookup fields "expert".data, jLookup fields "advanced".data,
        jLookup fields "intermediate".data, jLookup fields "beginner".data with
    | some t, some d, some e, some a, some i, some bg =>
        some { title := t, desc := d, expert := normalizeJ e, advanced := normalizeJ a,
               intermediate := normalizeJ i, beginner := normalizeJ bg }
    | _, _, _, _, _, _ => none
  | _ => none

/-- `CompetencyJob.model_validate` on a decoded JSON value: required
strings with minimal lengths, the defaulted `comp_type`, and a `topics`
list of 2–3 validated topics. -/
def validateJob (j : JVal) : Option CompetencyJobR :=
  match j with
  | .obj fields =>
    match vStr 2 (jLookup fields "competency_name".data),
        vStr 10 (jLookup fields "definition".data),
        vCompType (jLookup fields "comp_type".data),
        vStr 2 (jLookup fields "job_group".data),
        vStr 2 (jLookup fields "department".data),
        jLookup fields "topics".data with
    | some n, some d, some ct, some jg, some dep, some (.arr topicVals) =>
      match mapOpt validateTopic topicVals with
      | some ts =>
          if 2 ≤ ts.length ∧ ts.length ≤ 3 then
            some { competency_name := n, definition := d, comp_type := ct,
                   job_group := jg, department := dep, topics := ts }
          else none
      | none => none
    | _, _, _, _, _, _ => none
  | _ => none

/-- Validation of the `needs_clarification` field against
`Literal[True]`: only the boolean `true` passes. -/
def vLiteralTrue : Option JVal → Option Unit
  | some (.b true) => some ()
  | _ => none

/-- Validation of a `List[str]` pydantic field. -/
def vStrList : Option JVal → Option (List (List Char))
  | some (.arr items) => mapOpt (fun x => vStr 0 (some x)) items
  | _ => none

/-- Validation of the `Optional[str]` field `reason` with default
`None`. -/
def vReason : Option JVal → Option (Option (List Char))
  | none => some none
  | some .null => some none
  | some (.s r) => some (some r)
  | some _ => none

/-- `ClarificationNeeded.model_validate` on a decoded JSON value:
`needs_clarification` must be the literal `True`, `candidates` a list of
2–5 strings, `question` a string of length at least 6, `reason` an
optional string defaulting to `None`. -/
def validateClarification (j : JVal) : Option ClarificationNeeded :=
  match j with
  | .obj fields =>
    (vLiteralTrue (jLookup fields "needs_clarification".data)).bind fun _ =>
    (vStrList (jLookup fields "candidates".data)).bind fun cands =>
    if 2 ≤ cands.length ∧ cands.length ≤ 5 then
      (vStr 6 (jLookup fields "question".data)).bind fun q =>
      (vReason (jLookup fields "reason".data)).map fun r =>
      { candidates := cands, question := q, reason := r }
    else none
  | _ => none

deriving instance DecidableEq for Except

/-- The two shapes `_parse_brain_output` can return. -/
inductive BrainOutput where
  | jobs (records : List CompetencyJobR)
  | clarification (c : ClarificationNeeded)
deriving Repr, DecidableEq

/-- The parse/validation failures one synthesis attempt can raise, all
caught by the retry loop: an undecodable JSON text
(`json.JSONDecodeError`), a failed pydantic validation
(`ValidationError`), or a decoded value that is neither a list nor a
clarification object (`ValueError`). -/
inductive ParseErr where
  | jsonDecode
  | validation
  | notAnArray
deriving Repr, DecidableEq

/-- `_parse_brain_output` from `src/base_agent/tools/brain.py` (lines
262-277) on the decoded response: a dict carrying a literal-`True`
`needs_clarification` validates as a clarification; any other
non-list fails; a list has every element validated as a
`CompetencyJob`, and a multiplicity other than one is truncated to the
first element. -/
def parse_brain_output (decoded : Option JVal) : Except ParseErr BrainOutput :=
  match decoded with
  | none => .error .jsonDecode
  | some j =>
    match j with
    | .obj fields =>
      match jLookup fields "needs_clarification".data with
      | some (.b true) =>
        match validateClarification j with
        | some c => .ok (.clarification c)
        | none => .error .validation
      | _ => .error .notAnArray
    | .arr items =>
      match mapOpt validateJob items with
      | some jobs => .ok (.jobs (if jobs.length ≠ 1 then jobs.take 1 else jobs))
      | none => .error .validation
    | _ => .error .notAnArray

/-- The JobPayload fields consulted by the header override of
`generate_competency_json`: the step-1 payload dict entries under their
snake_case keys and their Arabic-label fallbacks (string values or
absent/None). -/
structure JobPayloadR where
  general_group : Option (List Char)
  general_group_ar : Option (List Char)
  specific_group : Option (List Char)
  specific_group_ar : Option (List Char)
  job_location : Option (List Char)
  job_location_ar : Option (List Char)
deriving Repr, DecidableEq

/-- Python `(a or b or "")` over two optional strings: `None` and the
empty string are falsy. -/
def pyOr2 (a b : Option (List Char)) : List Char :=
  if a.getD [] ≠ [] then a.getD [] else b.getD []

/-- The header-override step of `generate_competency_json`
(`src/base_agent/tools/brain.py` lines 336-363): on a nonempty validated
list, `comp_type`, `job_group` and `department` of the first record are
overwritten from the stripped JobPayload fields `general_group`,
`specific_group` and `job_location` whenever those are nonempty. -/
def applyHeaderOverride (payload : JobPayloadR) (out : List CompetencyJobR) :
    List CompetencyJobR :=
  match out with
  | [] => []
  | job0 :: rest =>
    let gg := pyStrip (pyOr2 payload.general_group payload.general_group_ar)
    let sg := pyStrip (pyOr2 payload.specific_group payload.specific_group_ar)
    let jl := pyStrip (pyOr2 payload.job_location payload.job_location_ar)
    { job0 with
      comp_type := if gg ≠ [] then gg else job0.comp_type,
      job_group := if sg ≠ [] then sg else job0.job_group,
      department := if jl ≠ [] then jl else job0.department } :: rest

/-- The fixed `ClarificationNeeded` returned when no target project is
configured (`src/base_agent/tools/brain.py` lines 310-320). -/
def noProjectClarification : ClarificationNeeded :=
  { candidates :=
      [ "تنظيم/تشريعات المجال الوظيفي".data,
        "إدارة الامتثال والحوكمة".data,
        "تحليل البيانات (عند اللزوم)".data ],
    question := "لم يتم تهيئة GOOGLE_CLOUD_PROJECT. اختر الكفاءة الأنسب للوظيفة:".data,
    reason := some "تعذر استدعاء Gemini محليًا بدون إعدادات مشروع Vertex AI.".data }

/-- The terminal `RuntimeError` of `generate_competency_json` after the
attempt budget is exhausted, carrying the attempt count and the last
parse/validation error. -/
inductive BrainErr where
  | exhausted (attempts : Nat) (lastErr : Option ParseErr)
deriving Repr, DecidableEq

/-- The retry loop of `generate_competency_json`: each attempt consumes
the next synthesizer response (`synth i` is the decoded JSON of the
`i`-th `_call_gemini_generate` result); a successful parse returns after
the header override, a parse/validation failure retries.  The second
component counts the synthesizer calls made. -/
def brainLoop (payload : JobPayloadR) (synth : Nat → Option JVal) (total : Nat) :
    Nat → Nat → Option ParseErr → Except BrainErr BrainOutput × Nat
  | 0, callsMade, lastErr => (.error (.exhausted total lastErr), callsMade)
  | remaining + 1, callsMade, _ =>
    match parse_brain_output (synth callsMade) with
    | .ok (.jobs records) =>
        (.ok (.jobs (applyHeaderOverride payload records)), callsMade + 1)
    | .ok (.clarification c) => (.ok (.clarification c), callsMade + 1)
    | .error e => brainLoop payload synth total remaining (callsMade + 1) (some e)

/-- `generate_competency_json` from `src/base_agent/tools/brain.py`
(lines 280-367).  `project` is the resolved
`GOOGLE_CLOUD_PROJECT`/`GCP_PROJECT` value (empty when unset); the
synthesizer chain (`_call_gemini_generate` followed by code-fence
cleaning and `json.loads`) is the oracle `synth`.  Returns the outcome
and the number of synthesizer calls made. -/
def generate_competency_json (project : List Char) (payload : JobPayloadR)
    (retry : Int) (synth : Nat → Option JVal) :
    Except BrainErr BrainOutput × Nat :=
  if project = [] then
    (.ok (.clarification noProjectClarification), 0)
  else
    let attempts := 1 + (max 0 retry).toNat
    brainLoop payload synth attempts attempts 0 none

/-- A synthesizer topic object that validates (concrete test vector). -/
def sampleTopicJ : JVal :=
  .obj [("title".data, .s "موضوع فرعي".data),
        ("desc".data, .s "وصف الموضوع".data),
        ("expert".data, .s "يبتكر".data),
        ("advanced".data, .s "يطور".data),
        ("intermediate".data, .s "يطبق".data),
        ("beginner".data, .s "يساعد".data)]

/-- A synthesizer job object that validates (concrete test vector). -/
def sampleJobJ : JVal :=
  .obj [("competency_name".data, .s "إعداد التقارير".data),
        ("definition".data, .s "القدرة على إعداد التقارير المالية".data),
        ("comp_type".data, .s "فنية".data),
        ("job_group".data, .s "مالية".data),
        ("department".data, .s "الإدارة المالية".data),
        ("topics".data, .arr [sampleTopicJ, sampleTopicJ])]

/-- The validated record of `sampleTopicJ`. -/
def sampleTopicR : CompetencyTopicR :=
  { title := "موضوع فرعي".data, desc := "وصف الموضوع".data,
    expert := "يبتكر".data, advanced := "يطور".data,
    intermediate := "يطبق".data, beginner := "يساعد".data }

/-- The validated record of `sampleJobJ`. -/
def sampleJobR : CompetencyJobR :=
  { competency_name := "إعداد التقارير".data,
    definition := "القدرة على إعداد التقارير المالية".data,
    comp_type := "فنية".data, job_group := "مالية".data,
    department := "الإدارة المالية".data,
    topics := [sampleTopicR, sampleTopicR] }

/-- The trivial (all-absent) JobPayload. -/
def emptyPayload : JobPayloadR :=
  { general_group := none, general_group_ar := none, specific_group := none,
    specific_group_ar := none, job_location := none, job_location_ar := none }

/-- The clarification object of the spec scenario, as decoded fields. -/
def clarFieldsW : List (List Char × JVal) :=
  [("needs_clarification".data, .b true),
   ("candidates".data, .arr [.s "A".data, .s "B".data]),
   ("question".data, .s "choose one".data)]

/-- A JobPayload exercising the override: a sloppy `general_group`, an
empty `specific_group` whose Arabic-label twin is set, no location. -/
def payloadW : JobPayloadR :=
  { general_group := some " فنية عامة ".data, general_group_ar := none,
    specific_group := some "".data, specific_group_ar := some "نوعية".data,
    job_location := none, job_location_ar := none }

/-- A scripted synthesizer that always answers with one job object. -/
def synthW : Nat → Option JVal := fun _ => some (.arr [sampleJobJ])

/-- `REQUIRED_PLACEHOLDERS` from
`src/base_agent/tools/competency_generator.py` (lines 30-46). -/
def REQUIRED_PLACEHOLDERS : List String :=
  ["Header_CompType", "Header_JobGroup", "Header_Competency", "Header_Department",
   "Main_Title", "Main_Definition", "Topic_Title", "Topic_Description",
   "Level_Expert", "Level_Advanced", "Level_Intermediate", "Level_Beginner"]

/-- A slide layout of the template: its name and its placeholder shapes
as (name, placeholder-format index) pairs in shape order. -/
structure Layout where
  name : String
  phs : List (String × Nat)
deriving Repr, DecidableEq

/-- The presentation template as python-pptx exposes it to the renderer:
the layouts, and which placeholder indices an instantiated slide
carries (some templates do not carry every layout placeholder onto new
slides; `slide.placeholders[idx]` then raises `KeyError`). -/
structure Template where
  layouts : List Layout
  slideCarries : Nat → Bool

/-- `_find_layout` (`competency_generator.py` lines 103-108): the first
layout with the given name, else the last layout
(`prs.slide_layouts[-1]`); `none` only when the template has no layouts
at all, where Python would raise an IndexError. -/
def find_layout (tpl : Template) (layoutName : String) : Option Layout :=
  match tpl.layouts.find? (fun l => l.name == layoutName) with
  | some l => some l
  | none => tpl.layouts.getLast?

/-- Membership in `_layout_placeholder_map`: the dict holds a name when
some shape carries it. -/
def lmHas (phs : List (String × Nat)) (n : String) : Bool :=
  phs.any (fun p => p.1 == n)

/-- Lookup in `_layout_placeholder_map`: dict insertion iterates shapes
in order, later shapes of the same name overwriting earlier ones, so
the last match wins. -/
def lmIdx (phs : List (String × Nat)) (n : String) : Option Nat :=
  (phs.reverse.find? (fun p => p.1 == n)).map (fun p => p.2)

/-- A topic dict as the renderer reads it (string fields or absent). -/
structure TopicD where
  title : Option (List Char)
  desc : Option (List Char)
  expert : Option (List Char)
  advanced : Option (List Char)
  intermediate : Option (List Char)
  beginner : Option (List Char)
deriving Repr, DecidableEq

/-- The `topics` entry of a job dict: absent/None/falsy (`or []` turns
all of these into the empty list), a truthy non-list value, or an
actual list of topic dicts. -/
inductive TopicsField where
  | missing
  | nonList
  | list (ts : List TopicD)
deriving Repr, DecidableEq

/-- A job dict as the renderer reads it (string fields or absent). -/
structure JobD where
  competency_name : Option (List Char)
  definition : Option (List Char)
  comp_type : Option (List Char)
  job_group : Option (List Char)
  department : Option (List Char)
  general_group : Option (List Char)
  specific_group : Option (List Char)
  job_location : Option (List Char)
  topics : TopicsField
deriving Repr, DecidableEq

/-- Whether the `topics` check of `generate_competency_slides` lines
186-188 passes: only an actual nonempty list does. -/
def topicsOk : TopicsField → Bool
  | .list (_ :: _) => true
  | _ => false

/-- `topicsCount`: how many slides a job contributes when rendering
succeeds. -/
def topicsCount (j : JobD) : Nat :=
  match j.topics with
  | .list ts => ts.length
  | _ => 0

/-- `_strip_bullet_symbols` (`competency_generator.py` lines 95-100). -/
def strip_bullet_symbols (t : List Char) : List Char :=
  if t = [] then t else pyStrip (t.filter (fun c => c ≠ '•'))

/-- The renderer's `_normalize_lines` applied to an optional string
field (`topic.get(...)`, absent meaning `None`). -/
def normalizeOpt : Option (List Char) → List Char
  | none => []
  | some s => normalize_lines s

/-- The `content_map` built for one topic slide
(`competency_generator.py` lines 199-217), in insertion order. -/
def contentMap (job : JobD) (topic : TopicD) : List (String × List Char) :=
  [("Header_CompType", pyOr2 job.general_group job.comp_type),
   ("Header_JobGroup", pyOr2 job.specific_group job.job_group),
   ("Header_Competency", job.competency_name.getD []),
   ("Header_Department", pyOr2 job.job_location job.department),
   ("Main_Title", job.competency_name.getD []),
   ("Main_Definition", job.definition.getD []),
   ("Topic_Title", topic.title.getD []),
   ("Topic_Description", topic.desc.getD []),
   ("Level_Expert", normalizeOpt topic.expert),
   ("Level_Advanced", normalizeOpt topic.advanced),
   ("Level_Intermediate", normalizeOpt topic.intermediate),
   ("Level_Beginner", normalizeOpt topic.beginner)]

/-- The failures `generate_competency_slides` can raise; every one of
them aborts the function before `prs.save`, so an `.error` outcome
writes no output file. -/
inductive RenderErr where
  | templateNotFound
  | noLayouts
  | missingPlaceholders (names : List String)
  | emptyJobs
  | noTopics
  | placeholderNotInLayout (name : String)
  | slideMissingIdx (name : String) (idx : Nat)
deriving Repr, DecidableEq

/-- Sequential loop raising at the first failure (a Python `for` over a
body that can raise). -/
def mapExcept {ε α β : Type} (f : α → Except ε β) : List α → Except ε (List β)
  | [] => .ok []
  | x :: xs =>
    match f x with
    | .ok y =>
      match mapExcept f xs with
      | .ok ys => .ok (y :: ys)
      | .error e => .error e
    | .error e => .error e

/-- Writing the content map onto one instantiated slide
(`competency_generator.py` lines 219-236): each entry in order goes to
the placeholder index the layout maps its name to; a name absent from
the layout map or an index the slide does not carry raises in strict
mode and is skipped otherwise.  The result lists the writes
performed. -/
def writeSlide (tpl : Template) (phs : List (String × Nat)) (strict : Bool) :
    List (String × List Char) → Except RenderErr (List (String × List Char))
  | [] => .ok []
  | (n, v) :: rest =>
    match lmIdx phs n with
    | some idx =>
      if tpl.slideCarries idx then
        match writeSlide tpl phs strict rest with
        | .ok ws => .ok ((n, strip_bullet_symbols v) :: ws)
        | .error e => .error e
      else if strict then .error (.slideMissingIdx n idx)
      else writeSlide tpl phs strict rest
    | none =>
      if strict then .error (.placeholderNotInLayout n)
      else writeSlide tpl phs strict rest

/-- Rendering one job (`competency_generator.py` lines 185-236): the
unconditional nonempty-list check on `topics`, then one slide per
topic. -/
def renderJob (tpl : Template) (phs : List (String × Nat)) (strict : Bool)
    (job : JobD) : Except RenderErr (List (List (String × List Char))) :=
  match job.topics with
  | .list (t :: ts) =>
      mapExcept (fun topic => writeSlide tpl phs strict (contentMap job topic)) (t :: ts)
  | _ => .error .noTopics

/-- `generate_competency_slides` from
`src/base_agent/tools/competency_generator.py` (lines 138-240).  The
filesystem and python-pptx enter through `templateExists` and
`Template`.  A `.ok` result is the saved presentation — the written
slides in order, one per topic — and every `.error` is an exception
raised before the final `prs.save`, so no output file is written. -/
def generate_competency_slides (templateExists : Bool) (tpl : Template)
    (jobs : List JobD) (layoutName : String) (strict : Bool) :
    Except RenderErr (List (List (String × List Char))) :=
  if templateExists = false then .error .templateNotFound
  else
    match find_layout tpl layoutName with
    | none => .error .noLayouts
    | some lay =>
      if strict ∧ REQUIRED_PLACEHOLDERS.filter (fun n => !lmHas lay.phs n) ≠ [] then
        .error (.missingPlaceholders
          (REQUIRED_PLACEHOLDERS.filter (fun n => !lmHas lay.phs n)))
      else if jobs = [] then .error .emptyJobs
      else
        match mapExcept (renderJob tpl lay.phs strict) jobs with
        | .ok slidess => .ok slidess.flatten
        | .error e => .error e

/-- A complete layout carrying every required placeholder. -/
def layFull : Layout :=
  { name := "Competency_Layout",
    phs := REQUIRED_PLACEHOLDERS.enum.map (fun p => (p.2, p.1)) }

/-- A template with the complete layout, every index carried. -/
def tplFull : Template :=
  { layouts := [layFull], slideCarries := fun _ => true }

/-- The complete layout with its first required placeholder removed. -/
def layMissingOne : Layout :=
  { name := "Competency_Layout",
    phs := (REQUIRED_PLACEHOLDERS.drop 1).enum.map (fun p => (p.2, p.1 + 1)) }

/-- A template whose layout lacks `Header_CompType`. -/
def tplMissingOne : Template :=
  { layouts := [layMissingOne], slideCarries := fun _ => true }

/-- A concrete topic dict. -/
def topicW : TopicD :=
  { title := some "t1".data, desc := some "d1".data,
    expert := some "e1".data, advanced := some "a1".data,
    intermediate := some "i1".data, beginner := some "b1".data }

/-- A concrete two-topic job dict. -/
def jobW : JobD :=
  { competency_name := some "cn".data, definition := some "df".data,
    comp_type := some "ct".data, job_group := some "jg".data,
    department := some "dp".data, general_group := none,
    specific_group := none, job_location := none,
    topics := .list [topicW, topicW] }

/-- A job dict whose `topics` is the empty list. -/
def jobBadTopics : JobD :=
  { competency_name := none, definition := none, comp_type := none,
    job_group := none, department := none, general_group := none,
    specific_group := none, job_location := none, topics := .list [] }

/-! ### Properties of the segmenter (claim C1) -/

theorem segmentBounds_map_fst (lp : Nat) (ms : List Nat) :
    (segmentBounds lp ms).map Prod.fst = ms := by
  induction ms with
  | nil => rfl
  | cons s rest ih =>
    cases rest with
    | nil => rfl
    | cons s2 rest2 => simpa [segmentBounds] using ih

theorem segmentBounds_ne_nil (lp : Nat) (s : Nat) (rest : List Nat) :
    segmentBounds lp (s :: rest) ≠ [] := by
  cases rest <;> simp [segmentBounds]

theorem segmentBounds_fst_mem (lp : Nat) (ms : List Nat) {pr : Nat × Nat}
    (h : pr ∈ segmentBounds lp ms) : pr.1 ∈ ms := by
  have := List.mem_map_of_mem Prod.fst h
  rwa [segmentBounds_map_fst] at this

theorem segmentBounds_start_le_end (lp : Nat) (ms : List Nat)
    (hsort : ms.Pairwise (· < ·)) (hle : ∀ m ∈ ms, m ≤ lp) :
    ∀ pr ∈ segmentBounds lp ms, pr.1 ≤ pr.2 := by
  induction ms with
  | nil => simp [segmentBounds]
  | cons s rest ih =>
    cases rest with
    | nil =>
      intro pr hpr
      simp only [segmentBounds, List.mem_singleton] at hpr
      subst hpr
      exact hle s (by simp)
    | cons s2 rest2 =>
      intro pr hpr
      have hs2 : s < s2 := (List.pairwise_cons.mp hsort).1 s2 (by simp)
      simp only [segmentBounds, List.mem_cons] at hpr
      rcases hpr with h | h
      · subst h; simp; omega
      · exact ih (List.pairwise_cons.mp hsort).2
          (fun m hm => hle m (List.mem_cons_of_mem s hm)) pr h

theorem segmentBounds_chain (lp : Nat) (ms : List Nat)
    (hsort : ms.Pairwise (· < ·)) :
    List.Chain' (fun a b => a.2 + 1 = b.1) (segmentBounds lp ms) := by
  induction ms with
  | nil => simp [segmentBounds]
  | cons s rest ih =>
    cases rest with
    | nil => simp [segmentBounds]
    | cons s2 rest2 =>
      have hs2 : s < s2 := (List.pairwise_cons.mp hsort).1 s2 (by simp)
      have ihc := ih (List.pairwise_cons.mp hsort).2
      rw [show segmentBounds lp (s :: s2 :: rest2)
            = (s, s2 - 1) :: segmentBounds lp (s2 :: rest2) from rfl,
          List.chain'_cons']
      refine ⟨?_, ihc⟩
      intro y hy
      have hy1 : y.1 = s2 := by
        cases rest2 <;> simp only [segmentBounds, List.head?, Option.mem_def,
          Option.some.injEq] at hy <;> exact (congrArg Prod.fst hy).symm
      simp [hy1]
      omega

theorem segmentBounds_pairwise (lp : Nat) (ms : List Nat)
    (hsort : ms.Pairwise (· < ·)) :
    (segmentBounds lp ms).Pairwise (fun a b => a.2 < b.1) := by
  induction ms with
  | nil => simp [segmentBounds]
  | cons s rest ih =>
    cases rest with
    | nil => simp [segmentBounds]
    | cons s2 rest2 =>
      have hs2 : s < s2 := (List.pairwise_cons.mp hsort).1 s2 (by simp)
      have htail := (List.pairwise_cons.mp hsort).2
      rw [show segmentBounds lp (s :: s2 :: rest2)
            = (s, s2 - 1) :: segmentBounds lp (s2 :: rest2) from rfl,
          List.pairwise_cons]
      refine ⟨?_, ih htail⟩
      intro pr hpr
      have h1 : pr.1 ∈ s2 :: rest2 := segmentBounds_fst_mem lp _ hpr
      simp only [List.mem_cons] at h1
      rcases h1 with h1 | h1
      · simp [h1]; omega
      · have : s2 < pr.1 := (List.pairwise_cons.mp htail).1 pr.1 h1
        simp; omega

theorem segmentBounds_last_snd (lp : Nat) (ms : List Nat) (h : ms ≠ []) :
    ((segmentBounds lp ms).map Prod.snd).getLast? = some lp := by
  induction ms with
  | nil => exact absurd rfl h
  | cons s rest ih =>
    cases rest with
    | nil => rfl
    | cons s2 rest2 =>
      have hne := segmentBounds_ne_nil lp s2 rest2
      rw [show segmentBounds lp (s :: s2 :: rest2)
            = (s, s2 - 1) :: segmentBounds lp (s2 :: rest2) from rfl]
      rcases hsb : segmentBounds lp (s2 :: rest2) with _ | ⟨pr, prs⟩
      · exact absurd hsb hne
      · rw [List.map_cons, List.map_cons, List.getLast?_cons_cons]
        have := ih (by simp)
        rwa [hsb, List.map_cons] at this

theorem markerPages_sublist (pts : List (List Char)) :
    (markerPages pts).Sublist (List.range pts.length) := by
  have h1 : ((pts.enum.filter (fun p => hasSeq jdHeader p.2)).map Prod.fst).Sublist
      (pts.enum.map Prod.fst) := (List.filter_sublist _).map Prod.fst
  rwa [List.enum_map_fst] at h1

theorem markerPages_sorted (pts : List (List Char)) :
    (markerPages pts).Pairwise (· < ·) :=
  List.Pairwise.sublist (markerPages_sublist pts) (List.pairwise_lt_range _)

theorem markerPages_lt (pts : List (List Char)) :
    ∀ m ∈ markerPages pts, m < pts.length := by
  intro m hm
  exact List.mem_range.mp ((markerPages_sublist pts).subset hm)

theorem enum_map_comp {α β : Type} (l : List α) (g : α → β) :
    l.enum.map (fun p => g p.2) = l.map g := by
  rw [show (fun p : Nat × α => g p.2) = g ∘ Prod.snd from rfl, ← List.map_map,
    List.enum_map_snd]

/-- C1: segmentation yields exactly one segment per marker page.  Segment
starts are exactly the marker-containing pages in order (so N marker pages
give exactly N segments, and zero marker pages give the empty list rather
than an error); every segment has a nonempty page range; consecutive
segments tile (each ends on the page right before the next segment's
start, so the segments cover every page from the first marker page to the
document end); the last segment ends on the last page; and the segments
are pairwise non-overlapping. -/
theorem C1_marker_segmentation (pageTexts : List (List Char)) :
    (detect_job_segments pageTexts).map JobSegment.page_start = markerPages pageTexts
    ∧ (detect_job_segments pageTexts).length = (markerPages pageTexts).length
    ∧ (detect_job_segments pageTexts).isEmpty = (markerPages pageTexts).isEmpty
    ∧ (∀ s ∈ detect_job_segments pageTexts, s.page_start ≤ s.page_end)
    ∧ List.Chain' (fun a b => a.page_end + 1 = b.page_start)
        (detect_job_segments pageTexts)
    ∧ ((detect_job_segments pageTexts).map JobSegment.page_end).getLast?
        = (if (markerPages pageTexts).isEmpty then none
           else some (pageTexts.length - 1))
    ∧ List.Pairwise (fun a b => a.page_end < b.page_start)
        (detect_job_segments pageTexts) := by
  by_cases h : markerPages pageTexts = []
  · simp [detect_job_segments, h]
  · have hsort := markerPages_sorted pageTexts
    have hle : ∀ m ∈ markerPages pageTexts, m ≤ pageTexts.length - 1 := by
      intro m hm
      have := markerPages_lt pageTexts m hm
      omega
    have hsegs : detect_job_segments pageTexts
        = ((segmentBounds (pageTexts.length - 1) (markerPages pageTexts)).enum).map
            (fun p =>
              { index := p.1, page_start := p.2.1, page_end := p.2.2,
                title := extractTitle (pageTexts.getD p.2.1 []) : JobSegment }) := by
      simp [detect_job_segments, h]
    set sb := segmentBounds (pageTexts.length - 1) (markerPages pageTexts) with hsb
    have hstart : (detect_job_segments pageTexts).map JobSegment.page_start
        = markerPages pageTexts := by
      rw [hsegs, List.map_map]
      have : (JobSegment.page_start ∘ fun p : Nat × (Nat × Nat) =>
          { index := p.1, page_start := p.2.1, page_end := p.2.2,
            title := extractTitle (pageTexts.getD p.2.1 []) : JobSegment })
          = fun p : Nat × (Nat × Nat) => p.2.1 := rfl
      rw [this, enum_map_comp sb (fun q => q.1),
        show (fun q : Nat × Nat => q.1) = Prod.fst from rfl, hsb,
        segmentBounds_map_fst]
    have hend : (detect_job_segments pageTexts).map JobSegment.page_end
        = sb.map Prod.snd := by
      rw [hsegs, List.map_map]
      have : (JobSegment.page_end ∘ fun p : Nat × (Nat × Nat) =>
          { index := p.1, page_start := p.2.1, page_end := p.2.2,
            title := extractTitle (pageTexts.getD p.2.1 []) : JobSegment })
          = fun p : Nat × (Nat × Nat) => p.2.2 := rfl
      rw [this, enum_map_comp sb (fun q => q.2)]
    refine ⟨hstart, ?_, ?_, ?_, ?_, ?_, ?_⟩
    · rw [← hstart]
      exact (List.length_map _ _).symm
    · rw [← hstart]
      cases detect_job_segments pageTexts <;> rfl
    · intro s hs
      rw [hsegs] at hs
      rcases List.mem_map.mp hs with ⟨p, hp, hps⟩
      have hp2 : p.2 ∈ sb := by
        have := List.mem_map_of_mem Prod.snd hp
        rwa [List.enum_map_snd] at this
      have := segmentBounds_start_le_end (pageTexts.length - 1)
        (markerPages pageTexts) hsort hle p.2 hp2
      rw [← hps]
      exact this
    · rw [hsegs, List.chain'_map]
      have hchain := segmentBounds_chain (pageTexts.length - 1)
        (markerPages pageTexts) hsort
      rw [← hsb, ← List.enum_map_snd sb, List.chain'_map] at hchain
      exact hchain
    · rw [hend, if_neg (by simpa using h)]
      exact segmentBounds_last_snd _ _ (by simpa [hsb] using h)
    · rw [hsegs, List.pairwise_map]
      have hpw := segmentBounds_pairwise (pageTexts.length - 1)
        (markerPages pageTexts) hsort
      rw [← hsb, ← List.enum_map_snd sb, List.pairwise_map] at hpw
      exact hpw

/-! ### Title extraction (claim C8) -/

/-- C8 counterexample: on a single page holding the header line followed
by a line of whitespace only, the code keeps the default placeholder
title (the `lines.index` branch succeeds, finds no following nonempty
line, and never reaches the regex), while the claim's described
algorithm reaches the regex fallback, which captures the whitespace and
strips it to the empty title.  The two disagree. -/
theorem C8_counterexample :
    (detect_job_segments [jdHeader ++ "\n ".data]).map JobSegment.title = [defaultTitle]
    ∧ titleClaimC8 (jdHeader ++ "\n ".data) = []
    ∧ defaultTitle ≠ [] := by
  refine ⟨by decide, by decide, by decide⟩

theorem extractTitle_eq_titleAmendedC8 (pageText : List Char) :
    extractTitle pageText = titleAmendedC8 pageText := by
  simp only [extractTitle, titleAmendedC8]
  cases hidx : (pageLines pageText).findIdx? (fun l => l == jdHeader) with
  | none => rfl
  | some k =>
    simp only []
    by_cases hk : k + 1 < (pageLines pageText).length
    · rw [if_pos hk, List.get?_eq_get hk]
      simp [List.getD_eq_getElem?_getD, List.getElem?_eq_getElem hk]
    · rw [if_neg hk, List.get?_eq_none.mpr (by omega)]

/-- C8 (amended): for every produced segment, the title is the stripped
line right after the header line of the segment's opening page when the
header appears as its own stripped line and a following nonempty line
exists; when the header is its own line but nothing follows, the title is
the default placeholder (no regex attempt); and only when no stripped
line equals the header does the segmenter fall back to the regex search
for the header followed by the remainder of the block, settling on the
default placeholder if that also fails. -/
theorem C8_title_extraction_amended (pageTexts : List (List Char)) (seg : JobSegment)
    (hseg : seg ∈ detect_job_segments pageTexts) :
    seg.title = titleAmendedC8 (pageTexts.getD seg.page_start []) := by
  unfold detect_job_segments at hseg
  by_cases h : markerPages pageTexts = []
  · simp [h] at hseg
  · simp only [if_neg h] at hseg
    rcases List.mem_map.mp hseg with ⟨p, _, hps⟩
    rw [← hps]
    exact extractTitle_eq_titleAmendedC8 _

theorem C8_title_extraction_amended_witness :
    ({ index := 0, page_start := 0, page_end := 0,
       title := "My Job".data : JobSegment })
      ∈ detect_job_segments [jdHeader ++ "\nMy Job".data]
    ∧ ({ index := 0, page_start := 0, page_end := 0,
         title := "My Job".data : JobSegment }).title
        = titleAmendedC8 ([jdHeader ++ "\nMy Job".data].getD 0 []) :=
  ⟨by decide, C8_title_extraction_amended _ _ (by decide)⟩

/-! ### Whitespace stripping and line splitting: basic lemmas -/

theorem splitSep_nil (p : Char → Bool) : splitSep p [] = [[]] := rfl

theorem splitSep_cons (p : Char → Bool) (c : Char) (t : List Char) :
    splitSep p (c :: t)
      = if p c then [] :: splitSep p t
        else
          match splitSep p t with
          | [] => [[c]]
          | w :: ws => (c :: w) :: ws := rfl

theorem splitSep_ne_nil (p : Char → Bool) (l : List Char) : splitSep p l ≠ [] := by
  induction l with
  | nil => simp [splitSep]
  | cons c t ih =>
    rw [splitSep_cons]
    by_cases h : p c
    · simp [h]
    · rcases hs : splitSep p t with _ | ⟨w, ws⟩
      · exact absurd hs ih
      · simp [h, hs]

theorem dropWhile_head_false (p : Char → Bool) (l : List Char) {c : Char} {t : List Char}
    (h : l.dropWhile p = c :: t) : p c = false := by
  induction l with
  | nil => simp at h
  | cons a l2 ih =>
    rw [List.dropWhile_cons] at h
    by_cases ha : p a = true
    · exact ih (by rwa [if_pos ha] at h)
    · rw [if_neg ha] at h
      cases h
      simpa using ha

theorem dropWhile_idem (p : Char → Bool) (l : List Char) :
    (l.dropWhile p).dropWhile p = l.dropWhile p := by
  rcases h : l.dropWhile p with _ | ⟨c, t⟩
  · rfl
  · rw [List.dropWhile_cons]
    simp [dropWhile_head_false p l h]

theorem rstrip_front (x : List Char) : rstripWs x <+: x := by
  have h := List.dropWhile_suffix (l := x.reverse) pySpace
  rw [show x.reverse.dropWhile pySpace
      = (x.reverse.dropWhile pySpace).reverse.reverse by rw [List.reverse_reverse]] at h
  exact List.reverse_suffix.mp h

theorem mem_of_mem_lstrip {c : Char} {l : List Char} (h : c ∈ lstripWs l) : c ∈ l :=
  (List.dropWhile_suffix pySpace).sublist.subset h

theorem mem_of_mem_rstrip {c : Char} {l : List Char} (h : c ∈ rstripWs l) : c ∈ l :=
  (rstrip_front l).sublist.subset h

theorem mem_of_mem_pyStrip {c : Char} {l : List Char} (h : c ∈ pyStrip l) : c ∈ l :=
  mem_of_mem_lstrip (mem_of_mem_rstrip h)

theorem lstrip_of_head (x : List Char)
    (hx : ∀ c t, x = c :: t → pySpace c = false) : lstripWs x = x := by
  cases x with
  | nil => rfl
  | cons c t => simp [lstripWs, List.dropWhile_cons, hx c t rfl]

theorem lstrip_rstrip (x : List Char) (hx : lstripWs x = x) :
    lstripWs (rstripWs x) = rstripWs x := by
  apply lstrip_of_head
  intro c t hct
  rcases rstrip_front x with ⟨r, hr⟩
  have hx2 : x = c :: (t ++ r) := by rw [← hr, hct]; simp
  have h3 : x.dropWhile pySpace = c :: (t ++ r) := by
    rw [show x.dropWhile pySpace = x from hx]; exact hx2
  exact dropWhile_head_false pySpace x h3

theorem lstrip_pyStrip (l : List Char) : lstripWs (pyStrip l) = pyStrip l :=
  lstrip_rstrip (lstripWs l) (dropWhile_idem pySpace l)

theorem pyStrip_idem (l : List Char) : pyStrip (pyStrip l) = pyStrip l := by
  unfold pyStrip
  rw [show lstripWs (rstripWs (lstripWs l)) = rstripWs (lstripWs l) from
    lstrip_rstrip (lstripWs l) (dropWhile_idem pySpace l)]
  unfold rstripWs
  rw [List.reverse_reverse, dropWhile_idem]

theorem splitSep_pieces (p : Char → Bool) (x : List Char) :
    ∀ w ∈ splitSep p x, ∀ c ∈ w, c ∈ x ∧ p c = false := by
  induction x with
  | nil =>
    intro w hw c hc
    simp [splitSep] at hw
    subst hw; simp at hc
  | cons a t ih =>
    intro w hw c hc
    rw [splitSep_cons] at hw
    by_cases ha : p a = true
    · rw [if_pos ha] at hw
      rcases List.mem_cons.mp hw with h | h
      · subst h; simp at hc
      · have := ih w h c hc
        exact ⟨List.mem_cons_of_mem a this.1, this.2⟩
    · rw [if_neg ha] at hw
      rcases hs : splitSep p t with _ | ⟨w1, ws⟩
      · exact absurd hs (splitSep_ne_nil p t)
      · rw [hs] at hw
        rcases List.mem_cons.mp hw with h | h
        · subst h
          rcases List.mem_cons.mp hc with h2 | h2
          · subst h2
            exact ⟨List.mem_cons_self _ _, by simpa using ha⟩
          · have := ih w1 (by rw [hs]; exact List.mem_cons_self _ _) c h2
            exact ⟨List.mem_cons_of_mem a this.1, this.2⟩
        · have := ih w (by rw [hs]; exact List.mem_cons_of_mem _ h) c hc
          exact ⟨List.mem_cons_of_mem a this.1, this.2⟩

theorem splitSep_of_nosep (p : Char → Bool) (w : List Char)
    (hw : ∀ c ∈ w, p c = false) : splitSep p w = [w] := by
  induction w with
  | nil => rfl
  | cons a t ih =>
    have hat : ∀ c ∈ t, p c = false := fun c hc => hw c (List.mem_cons_of_mem a hc)
    rw [splitSep_cons, if_neg (by simp [hw a (List.mem_cons_self a t)]), ih hat]

theorem splitSep_append_nosep (p : Char → Bool) (w l : List Char)
    (hw : ∀ c ∈ w, p c = false) :
    splitSep p (w ++ l) = (w ++ (splitSep p l).headD []) :: (splitSep p l).tail := by
  induction w with
  | nil =>
    rcases h : splitSep p l with _ | ⟨w1, ws⟩
    · exact absurd h (splitSep_ne_nil p l)
    · simp [h]
  | cons a t ih =>
    have hat : ∀ c ∈ t, p c = false := fun c hc => hw c (List.mem_cons_of_mem a hc)
    rw [List.cons_append, splitSep_cons,
      if_neg (by simp [hw a (List.mem_cons_self a t)]), ih hat]
    rfl

theorem splitSep_joinSep (p : Char → Bool) (sep : Char) (hsep : p sep = true)
    (ws : List (List Char)) (hws : ∀ w ∈ ws, ∀ c ∈ w, p c = false) (hne : ws ≠ []) :
    splitSep p (joinSep sep ws) = ws := by
  induction ws with
  | nil => exact absurd rfl hne
  | cons w rest ih =>
    cases rest with
    | nil =>
      exact splitSep_of_nosep p w (hws w (List.mem_cons_self _ _))
    | cons w2 rest2 =>
      rw [show joinSep sep (w :: w2 :: rest2)
          = w ++ sep :: joinSep sep (w2 :: rest2) from rfl,
        splitSep_append_nosep p w _ (hws w (List.mem_cons_self _ _)),
        show splitSep p (sep :: joinSep sep (w2 :: rest2))
          = [] :: splitSep p (joinSep sep (w2 :: rest2)) by
            rw [splitSep_cons, if_pos hsep],
        ih (fun w2 hw2 => hws w2 (List.mem_cons_of_mem w hw2)) (by simp)]
      simp

theorem mem_joinSep (sep : Char) (ws : List (List Char)) {c : Char}
    (h : c ∈ joinSep sep ws) : c = sep ∨ ∃ w ∈ ws, c ∈ w := by
  induction ws with
  | nil => simp [joinSep] at h
  | cons w rest ih =>
    cases rest with
    | nil => exact Or.inr ⟨w, List.mem_cons_self _ _, h⟩
    | cons w2 rest2 =>
      rw [show joinSep sep (w :: w2 :: rest2)
          = w ++ sep :: joinSep sep (w2 :: rest2) from rfl] at h
      rcases List.mem_append.mp h with h | h
      · exact Or.inr ⟨w, List.mem_cons_self _ _, h⟩
      · rcases List.mem_cons.mp h with h | h
        · exact Or.inl h
        · rcases ih h with h | ⟨w, hw, hc⟩
          · exact Or.inl h
          · exact Or.inr ⟨w, List.mem_cons_of_mem _ hw, hc⟩

theorem filterMap_self {α : Type} (f : α → Option α) (l : List α)
    (h : ∀ a ∈ l, f a = some a) : l.filterMap f = l := by
  induction l with
  | nil => rfl
  | cons a t ih =>
    rw [List.filterMap_cons, h a (List.mem_cons_self _ _),
      ih (fun b hb => h b (List.mem_cons_of_mem a hb))]

theorem map_eq_self {α : Type} (f : α → α) (l : List α)
    (h : ∀ a ∈ l, f a = a) : l.map f = l := by
  induction l with
  | nil => rfl
  | cons a t ih =>
    rw [List.map_cons, h a (List.mem_cons_self _ _),
      ih (fun b hb => h b (List.mem_cons_of_mem a hb))]

/-! ### Normalisation idempotence (claim C9) -/

theorem pageLines_mem (x : List Char) :
    ∀ l ∈ pageLines x, l ≠ [] ∧ pyStrip l = l ∧ ∀ c ∈ l, c ∈ x ∧ c ≠ '\n' := by
  intro l hl
  unfold pageLines at hl
  rcases List.mem_filter.mp hl with ⟨hmem, hne⟩
  rcases List.mem_map.mp hmem with ⟨w, hw, hws⟩
  refine ⟨by simpa using hne, by rw [← hws]; exact pyStrip_idem w, ?_⟩
  intro c hc
  have hcw : c ∈ w := mem_of_mem_pyStrip (by rwa [hws])
  have := splitSep_pieces (fun c => c = '\n') x w hw c hcw
  exact ⟨this.1, by simpa using this.2⟩

theorem cleanLine_noop (l : List Char) (hst : pyStrip l = l) (hne : l ≠ [])
    (hb : ∀ c ∈ l, bulletChar c = false) : cleanLine l = some l := by
  have hls : lstripWs l = l := by
    rw [← hst]; exact lstrip_pyStrip l
  have hsb : stripLeadingBullet l = l := by
    unfold stripLeadingBullet
    rw [show l.dropWhile pySpace = l from hls]
    cases l with
    | nil => rfl
    | cons c t =>
      have hbc : bulletChar c = false := hb c (List.mem_cons_self c t)
      simp [hbc]
  have hfil : l.filter (fun c => c ≠ '•') = l := by
    apply List.filter_eq_self.mpr
    intro a ha
    have := hb a ha
    simp only [bulletChar] at this
    simp only [decide_eq_true_eq]
    intro hEq
    rw [hEq] at this
    simp at this
  unfold cleanLine
  simp only [hsb, hfil, hst]
  rw [if_neg hne]

theorem normalize_lines_bulletFree (x : List Char)
    (hx : ∀ c ∈ x, bulletChar c = false) :
    normalize_lines x = joinSep '\n' (pageLines x) := by
  unfold normalize_lines
  congr 1
  apply filterMap_self
  intro l hl
  rcases pageLines_mem x l hl with ⟨hne, hst, hch⟩
  exact cleanLine_noop l hst hne (fun c hc => hx c (hch c hc).1)

theorem pageLines_joinSep (ws : List (List Char))
    (h : ∀ w ∈ ws, w ≠ [] ∧ pyStrip w = w ∧ ∀ c ∈ w, c ≠ '\n') :
    pageLines (joinSep '\n' ws) = ws := by
  cases ws with
  | nil => rfl
  | cons w rest =>
    unfold pageLines
    rw [splitSep_joinSep (fun c => c = '\n') '\n' (by simp) (w :: rest)
        (fun a ha c hc => by simpa using (h a ha).2.2 c hc) (by simp),
      map_eq_self pyStrip (w :: rest) (fun a ha => (h a ha).2.1)]
    exact List.filter_eq_self.mpr (fun a ha => by simp [(h a ha).1])

theorem joinSep_pageLines_bulletFree (x : List Char)
    (hx : ∀ c ∈ x, bulletChar c = false) :
    ∀ c ∈ joinSep '\n' (pageLines x), bulletChar c = false := by
  intro c hc
  rcases mem_joinSep '\n' (pageLines x) hc with h | ⟨w, hw, hcw⟩
  · subst h; decide
  · rcases pageLines_mem x w hw with ⟨_, _, hch⟩
    exact hx c (hch c hcw).1

/-- C9: the proficiency-line normalisation applied by both the validator
(`brain._normalize_lines`) and the renderer
(`competency_generator._normalize_lines`) is idempotent on every text
that carries no bullet-marker glyph (`•`, `-`, `*`):
normalising twice equals normalising once. -/
theorem C9_normalize_idempotent (x : List Char)
    (hx : ∀ c ∈ x, bulletChar c = false) :
    normalize_lines (normalize_lines x) = normalize_lines x := by
  have h1 := normalize_lines_bulletFree x hx
  have h2 := normalize_lines_bulletFree (joinSep '\n' (pageLines x))
    (joinSep_pageLines_bulletFree x hx)
  have h3 : pageLines (joinSep '\n' (pageLines x)) = pageLines x := by
    apply pageLines_joinSep
    intro w hw
    rcases pageLines_mem x w hw with ⟨hne, hst, hch⟩
    exact ⟨hne, hst, fun c hc => (hch c hc).2⟩
  rw [h1, h2, h3, ← h1]

theorem C9_normalize_idempotent_witness :
    (∀ c ∈ "خبرة عميقة\n  تحليل البيانات ".data, bulletChar c = false)
    ∧ normalize_lines (normalize_lines "خبرة عميقة\n  تحليل البيانات ".data)
        = normalize_lines "خبرة عميقة\n  تحليل البيانات ".data :=
  ⟨by decide, C9_normalize_idempotent _ (by decide)⟩

/-! ### Output naming (claim C7) -/

theorem dropWhile_append_singleton (p : Char → Bool) (xs : List Char) (c : Char)
    (hc : p c = false) : (xs ++ [c]).dropWhile p = xs.dropWhile p ++ [c] := by
  induction xs with
  | nil => simp [List.dropWhile_cons, hc]
  | cons a ys ih =>
    rw [List.cons_append, List.dropWhile_cons, List.dropWhile_cons]
    by_cases ha : p a = true
    · rw [if_pos ha, if_pos ha, ih]
    · rw [if_neg ha, if_neg ha, List.cons_append]

theorem dropWhile_append_of_ne_nil (p : Char → Bool) (xs ys : List Char)
    (h : xs.dropWhile p ≠ []) : (xs ++ ys).dropWhile p = xs.dropWhile p ++ ys := by
  induction xs with
  | nil => exact absurd rfl h
  | cons a t ih =>
    rw [List.cons_append, List.dropWhile_cons]
    by_cases ha : p a = true
    · rw [if_pos ha]
      rw [List.dropWhile_cons, if_pos ha] at h ⊢
      exact ih h
    · rw [if_neg ha]
      rw [List.dropWhile_cons, if_neg ha]
      rw [List.cons_append]

theorem rstrip_cons_nonspace (c : Char) (t : List Char) (hc : pySpace c = false) :
    rstripWs (c :: t) = c :: rstripWs t := by
  unfold rstripWs
  rw [List.reverse_cons, dropWhile_append_singleton pySpace t.reverse c hc,
    List.reverse_append]
  rfl

theorem rstrip_cons_space_of_exists (c : Char) (t : List Char)
    (_hc : pySpace c = true) (ht : ∃ d ∈ t, pySpace d = false) :
    rstripWs (c :: t) = c :: rstripWs t := by
  have hne : t.reverse.dropWhile pySpace ≠ [] := by
    rw [ne_eq, List.dropWhile_eq_nil_iff]
    rcases ht with ⟨d, hd, hpd⟩
    intro hall
    have := hall d (List.mem_reverse.mpr hd)
    rw [hpd] at this
    cases this
  unfold rstripWs
  rw [List.reverse_cons, dropWhile_append_of_ne_nil pySpace t.reverse [c] hne,
    List.reverse_append]
  rfl

theorem rstrip_all_space (x : List Char) (h : ∀ d ∈ x, pySpace d = true) :
    rstripWs x = [] := by
  unfold rstripWs
  rw [List.dropWhile_eq_nil_iff.mpr (fun d hd => h d (List.mem_reverse.mp hd))]
  rfl

theorem wsWords_cons_space (c : Char) (t : List Char) (hc : pySpace c = true) :
    wsWords (c :: t) = wsWords t := by
  unfold wsWords
  rw [splitSep_cons, if_pos hc, List.filter_cons]
  simp

theorem joinSep_cons_cons (sep : Char) (w1 w2 : List Char) (ws : List (List Char)) :
    joinSep sep (w1 :: w2 :: ws) = w1 ++ sep :: joinSep sep (w2 :: ws) := rfl

theorem joinSep_cons_head (sep c : Char) (w : List Char) (ws : List (List Char)) :
    joinSep sep ((c :: w) :: ws) = c :: joinSep sep (w :: ws) := by
  cases ws <;> rfl

theorem wsWords_head_nonspace (c : Char) (t : List Char) (hc : pySpace c = false) :
    ∃ w ws, splitSep pySpace t = w :: ws
      ∧ wsWords (c :: t) = (c :: w) :: ws.filter (fun x => x ≠ []) := by
  rcases hs : splitSep pySpace t with _ | ⟨w, ws⟩
  · exact absurd hs (splitSep_ne_nil pySpace t)
  · refine ⟨w, ws, rfl, ?_⟩
    unfold wsWords
    rw [splitSep_cons, if_neg (by simp [hc]), hs]
    simp [List.filter_cons]

theorem joinSep_wsWords_cons (c : Char) (t : List Char) (hc : pySpace c = false) :
    joinSep '_' (wsWords (c :: t)) = c :: (wsLead t ++ joinSep '_' (wsWords t)) := by
  cases t with
  | nil =>
    have h1 : wsWords [c] = [[c]] := by
      unfold wsWords
      rw [splitSep_cons, if_neg (by simp [hc]), splitSep_nil]
      simp [List.filter_cons]
    rw [h1]
    rfl
  | cons d t2 =>
    by_cases hd : pySpace d = true
    · have hsw : wsWords (c :: d :: t2) = [c] :: wsWords t2 := by
        unfold wsWords
        rw [splitSep_cons, if_neg (by simp [hc]), splitSep_cons, if_pos hd]
        simp [List.filter_cons]
      rw [hsw]
      have hlead : wsLead (d :: t2)
          = if (wsWords t2).isEmpty then [] else ['_'] := by
        simp [wsLead, hd, wsWords_cons_space d t2 hd]
      rw [hlead, wsWords_cons_space d t2 hd]
      rcases h2 : wsWords t2 with _ | ⟨w, ws⟩
      · simp [joinSep]
      · simp [joinSep_cons_cons, joinSep_cons_head]
    · have hd2 : pySpace d = false := by simpa using hd
      rcases hs : splitSep pySpace t2 with _ | ⟨w, ws⟩
      · exact absurd hs (splitSep_ne_nil pySpace t2)
      · have h1 : wsWords (c :: d :: t2) = (c :: d :: w) :: ws.filter (fun x => x ≠ []) := by
          unfold wsWords
          rw [splitSep_cons, if_neg (by simp [hc]), splitSep_cons,
            if_neg (by simp [hd2]), hs]
          simp [List.filter_cons]
        have h2 : wsWords (d :: t2) = (d :: w) :: ws.filter (fun x => x ≠ []) := by
          unfold wsWords
          rw [splitSep_cons, if_neg (by simp [hd2]), hs]
          simp [List.filter_cons]
        rw [h1, joinSep_cons_head, ← h2]
        have hlead : wsLead (d :: t2) = [] := by simp [wsLead, hd2]
        rw [hlead, List.nil_append]

theorem wsWords_all_space (t : List Char) (h : ∀ d ∈ t, pySpace d = true) :
    wsWords t = [] := by
  induction t with
  | nil => rfl
  | cons d t2 ih =>
    rw [wsWords_cons_space d t2 (h d (List.mem_cons_self _ _))]
    exact ih (fun x hx => h x (List.mem_cons_of_mem d hx))

theorem wsWords_ne_nil (t : List Char) (h : ∃ d ∈ t, pySpace d = false) :
    wsWords t ≠ [] := by
  induction t with
  | nil => simp at h
  | cons d t2 ih =>
    by_cases hd : pySpace d = true
    · rw [wsWords_cons_space d t2 hd]
      apply ih
      rcases h with ⟨x, hx, hpx⟩
      rcases List.mem_cons.mp hx with h1 | h1
      · subst h1
        rw [hd] at hpx
        cases hpx
      · exact ⟨x, h1, hpx⟩
    · have hd2 : pySpace d = false := by simpa using hd
      rcases wsWords_head_nonspace d t2 hd2 with ⟨w, ws, _, hw⟩
      rw [hw]
      simp

theorem collapse_rstrip (t : List Char) :
    collapseWsAux true (rstripWs t) = joinSep '_' (wsWords t)
    ∧ collapseWsAux false (rstripWs t) = wsLead t ++ joinSep '_' (wsWords t) := by
  induction t with
  | nil => exact ⟨rfl, rfl⟩
  | cons c t2 ih =>
    by_cases hc : pySpace c = true
    · by_cases ht : ∃ d ∈ t2, pySpace d = false
      · have hr : rstripWs (c :: t2) = c :: rstripWs t2 :=
          rstrip_cons_space_of_exists c t2 hc ht
        have hww := wsWords_cons_space c t2 hc
        have hnn := wsWords_ne_nil t2 ht
        constructor
        · rw [hr, show collapseWsAux true (c :: rstripWs t2)
              = collapseWsAux true (rstripWs t2) by simp [collapseWsAux, hc],
            ih.1, hww]
        · rw [hr, show collapseWsAux false (c :: rstripWs t2)
              = '_' :: collapseWsAux true (rstripWs t2) by simp [collapseWsAux, hc],
            ih.1]
          have hlead : wsLead (c :: t2) = ['_'] := by
            have : (wsWords (c :: t2)).isEmpty = false := by
              rw [hww]
              rcases h2 : wsWords t2 with _ | ⟨w, ws⟩
              · exact absurd h2 hnn
              · rfl
            simp [wsLead, hc, this]
          rw [hlead, hww]
          rfl
      · have hall : ∀ d ∈ t2, pySpace d = true := by
          intro d hd
          by_contra hcon
          exact ht ⟨d, hd, by simpa using hcon⟩
        have hr : rstripWs (c :: t2) = [] := by
          apply rstrip_all_space
          intro d hd
          rcases List.mem_cons.mp hd with h | h
          · subst h; exact hc
          · exact hall d h
        have hw0 : wsWords t2 = [] := wsWords_all_space t2 hall
        have hww := wsWords_cons_space c t2 hc
        constructor
        · rw [hr, hww, hw0]
          rfl
        · rw [hr, hww, hw0]
          have hlead : wsLead (c :: t2) = [] := by
            simp [wsLead, hc, hww, hw0]
          rw [hlead]
          rfl
    · have hc2 : pySpace c = false := by simpa using hc
      have hr : rstripWs (c :: t2) = c :: rstripWs t2 := rstrip_cons_nonspace c t2 hc2
      have hJ := joinSep_wsWords_cons c t2 hc2
      constructor
      · rw [hr, show collapseWsAux true (c :: rstripWs t2)
            = c :: collapseWsAux false (rstripWs t2) by simp [collapseWsAux, hc2],
          ih.2, hJ]
      · rw [hr, show collapseWsAux false (c :: rstripWs t2)
            = c :: collapseWsAux false (rstripWs t2) by simp [collapseWsAux, hc2],
          ih.2]
        have hlead : wsLead (c :: t2) = [] := by simp [wsLead, hc2]
        rw [hlead, List.nil_append, hJ]

theorem wsWords_lstrip (l : List Char) : wsWords (lstripWs l) = wsWords l := by
  induction l with
  | nil => rfl
  | cons c t ih =>
    by_cases hc : pySpace c = true
    · rw [show lstripWs (c :: t) = lstripWs t by
        simp [lstripWs, List.dropWhile_cons, hc], ih, wsWords_cons_space c t hc]
    · rw [show lstripWs (c :: t) = c :: t by
        simp [lstripWs, List.dropWhile_cons, hc]]

theorem wsLead_lstrip (l : List Char) : wsLead (lstripWs l) = [] := by
  rcases h : lstripWs l with _ | ⟨c, t⟩
  · rfl
  · have := dropWhile_head_false pySpace l h
    simp [wsLead, this]

theorem collapseWs_pyStrip (l : List Char) :
    collapseWs (pyStrip l) = joinSep '_' (wsWords l) := by
  have h := (collapse_rstrip (lstripWs l)).2
  unfold collapseWs pyStrip
  rw [h, wsLead_lstrip, wsWords_lstrip, List.nil_append]

theorem joinSep_eq_nil_iff (sep : Char) (ws : List (List Char))
    (h : ∀ w ∈ ws, w ≠ []) : joinSep sep ws = [] ↔ ws = [] := by
  cases ws with
  | nil => simp [joinSep]
  | cons w rest =>
    cases rest with
    | nil => simp [joinSep, h w (List.mem_cons_self _ _)]
    | cons w2 r2 => simp [joinSep_cons_cons]

theorem allowChar_eq_amended (c : Char) : allowChar c = allowCharAmendedC7 c := by
  rw [Bool.eq_iff_iff]
  simp only [allowChar, allowCharAmendedC7, allowCharClaimC7, asciiWord,
    Bool.or_eq_true, Bool.and_eq_true, decide_eq_true_eq]
  tauto

/-- C7 counterexample: on the title `" a_b "` the implemented allow-list
keeps the underscore (Python's `\w` matches it) and the implementation
strips surrounding whitespace before collapsing, so the code produces
`"a_b_2025-01-05.pptx"`, while the function the claim describes strips
the underscore and turns the leading and trailing whitespace runs into
underscores, producing `"_ab__2025-01-05.pptx"`. -/
theorem C7_counterexample :
    default_output_name " a_b ".data "2025-01-05".data = "a_b_2025-01-05.pptx".data
    ∧ outputNameClaimC7 " a_b ".data "2025-01-05".data = "_ab__2025-01-05.pptx".data
    ∧ outputNameClaimC7 " a_b ".data "2025-01-05".data
        ≠ default_output_name " a_b ".data "2025-01-05".data := by
  refine ⟨by decide, by decide, by decide⟩

/-- C7 (amended): the output-name function is a pure function of
(title, date): it keeps exactly the characters of the allow-list — the
source script's alphabet, latin letters/digits, underscores, hyphens and
spaces — trims surrounding whitespace and collapses every interior
whitespace run to a single underscore (equivalently: joins the
whitespace-separated words with underscores), falls back to the literal
stem "job" when nothing remains, and appends the ISO date suffix and the
fixed ".pptx" extension.  In particular "Senior Engineer" with date
2025-01-05 yields "Senior_Engineer_2025-01-05.pptx". -/
theorem C7_output_name_amended :
    (∀ jobTitle dateIso : List Char,
      default_output_name jobTitle dateIso = outputNameAmendedC7 jobTitle dateIso)
    ∧ default_output_name "Senior Engineer".data "2025-01-05".data
        = "Senior_Engineer_2025-01-05.pptx".data := by
  constructor
  · intro t d
    simp only [default_output_name, outputNameAmendedC7]
    rw [show t.filter allowChar = t.filter allowCharAmendedC7 from
      List.filter_congr (fun a _ => allowChar_eq_amended a)]
    rw [collapseWs_pyStrip]
    have hne : ∀ w ∈ wsWords (t.filter allowCharAmendedC7), w ≠ [] := by
      intro w hw
      have := List.mem_filter.mp hw
      simpa using this.2
    by_cases h : wsWords (t.filter allowCharAmendedC7) = []
    · rw [h]
      simp [joinSep]
    · rw [if_neg (by rw [joinSep_eq_nil_iff '_' _ hne]; exact h), if_neg h]
  · decide

/-! ### The validator pipeline (claims C3, C4, C5, C6) -/

/-- C4: with no target project configured, `generate_competency_json`
makes zero synthesizer calls and deterministically returns the fixed
`ClarificationNeeded` — the same value on any two runs, for any payload,
retry budget or synthesizer — whose candidate set has between 2 and 5
generic members and whose question and reason are fixed strings. -/
theorem C4_no_project_clarification :
    (∀ (payload : JobPayloadR) (retry : Int) (synth : Nat → Option JVal),
      generate_competency_json [] payload retry synth
        = (.ok (.clarification noProjectClarification), 0))
    ∧ 2 ≤ noProjectClarification.candidates.length
    ∧ noProjectClarification.candidates.length ≤ 5
    ∧ (∀ (p1 : JobPayloadR) (r1 : Int) (s1 : Nat → Option JVal) p2 r2 s2,
      generate_competency_json [] p1 r1 s1 = generate_competency_json [] p2 r2 s2) := by
  refine ⟨fun p r s => rfl, by decide, by decide, fun p1 r1 s1 p2 r2 s2 => rfl⟩

theorem mapOpt_vStr0_map_s (cands : List (List Char)) :
    mapOpt (fun x => vStr 0 (some x)) (cands.map JVal.s) = some cands := by
  induction cands with
  | nil => rfl
  | cons c cs ih =>
    simp only [List.map_cons, mapOpt]
    rw [ih]
    simp [vStr]

/-- C6: when the first synthesizer response decodes to a well-formed
clarification object (a literal-`True` `needs_clarification` flag, 2–5
string candidates, a question of length at least 6),
`generate_competency_json` returns a `ClarificationNeeded` carrying
exactly those candidates and that question after exactly one synthesizer
call: a well-formed clarification is never retried. -/
theorem C6_clarification_no_retry (project : List Char) (hp : project ≠ [])
    (payload : JobPayloadR) (retry : Int) (synth : Nat → Option JVal)
    (fields : List (List Char × JVal)) (cands : List (List Char)) (q : List Char)
    (hsynth : synth 0 = some (.obj fields))
    (hflag : jLookup fields "needs_clarification".data = some (.b true))
    (hcands : jLookup fields "candidates".data = some (.arr (cands.map JVal.s)))
    (hlen : 2 ≤ cands.length ∧ cands.length ≤ 5)
    (hq : jLookup fields "question".data = some (.s q))
    (hqlen : 6 ≤ q.length)
    (hreason : jLookup fields "reason".data = none) :
    generate_competency_json project payload retry synth
      = (.ok (.clarification { candidates := cands, question := q, reason := none }), 1) := by
  have hval : validateClarification (.obj fields)
      = some { candidates := cands, question := q, reason := none } := by
    simp only [validateClarification]
    rw [hflag, hcands, hq, hreason]
    simp only [vLiteralTrue, vStrList, vReason]
    rw [mapOpt_vStr0_map_s]
    simp [vStr, hlen, hqlen]
  have hparse : parse_brain_output (synth 0)
      = .ok (.clarification { candidates := cands, question := q, reason := none }) := by
    rw [hsynth]
    simp only [parse_brain_output]
    rw [hflag]
    simp only []
    rw [hval]
  unfold generate_competency_json
  rw [if_neg hp]
  show brainLoop payload synth (1 + (max 0 retry).toNat) (1 + (max 0 retry).toNat) 0 none = _
  rw [show 1 + (max 0 retry).toNat = (max 0 retry).toNat + 1 from Nat.add_comm 1 _]
  simp only [brainLoop]
  rw [hparse]

theorem C6_clarification_no_retry_witness :
    generate_competency_json "p".data emptyPayload 1 (fun _ => some (.obj clarFieldsW))
      = (.ok (.clarification
          { candidates := ["A".data, "B".data], question := "choose one".data,
            reason := none }), 1) :=
  C6_clarification_no_retry "p".data (by decide) emptyPayload 1 _
    clarFieldsW ["A".data, "B".data] "choose one".data
    rfl rfl rfl (by decide) rfl (by decide) rfl

/-- C5 counterexample: on a JSON array holding two validating job
objects followed by one non-validating element, more than one element
validates as a CompetencyRecord, yet `_parse_brain_output` raises a
validation error instead of keeping the first record and discarding the
rest. -/
theorem C5_counterexample :
    (validateJob sampleJobJ).isSome = true
    ∧ (validateJob (.s "junk".data)).isSome = false
    ∧ parse_brain_output (some (.arr [sampleJobJ, sampleJobJ, .s "junk".data]))
        = .error .validation := by
  refine ⟨by decide, by decide, by decide⟩

/-- C5 (amended): when the synthesizer's decoded text is a JSON array in
which every element validates as a CompetencyRecord and more than one
element is present, the validator keeps only the first validated record
and discards the rest, without error and without merging: the returned
list has length exactly one.  (When some element fails validation the
whole attempt fails instead — see the counterexample.) -/
theorem C5_truncation_amended (items : List JVal) (jobs : List CompetencyJobR)
    (hall : mapOpt validateJob items = some jobs) (hlen : 2 ≤ jobs.length) :
    parse_brain_output (some (.arr items)) = .ok (.jobs (jobs.take 1))
    ∧ (jobs.take 1).length = 1 := by
  constructor
  · simp only [parse_brain_output]
    rw [hall]
    have hne : jobs.length ≠ 1 := by omega
    simp [hne]
  · rcases jobs with _ | ⟨j, rest⟩
    · simp at hlen
    · simp

theorem C5_truncation_amended_witness :
    parse_brain_output (some (.arr [sampleJobJ, sampleJobJ]))
        = .ok (.jobs ([sampleJobR, sampleJobR].take 1))
    ∧ ([sampleJobR, sampleJobR].take 1).length = 1 :=
  C5_truncation_amended [sampleJobJ, sampleJobJ] [sampleJobR, sampleJobR]
    (by decide) (by decide)

theorem brainLoop_ok_jobs (payload : JobPayloadR) (synth : Nat → Option JVal)
    (total : Nat) :
    ∀ remaining callsMade lastErr records calls2,
      brainLoop payload synth total remaining callsMade lastErr
        = (.ok (.jobs records), calls2)
      → ∃ i parsed, parse_brain_output (synth i) = .ok (.jobs parsed)
          ∧ records = applyHeaderOverride payload parsed := by
  intro remaining
  induction remaining with
  | zero =>
    intro callsMade lastErr records calls2 h
    simp [brainLoop] at h
  | succ k ih =>
    intro callsMade lastErr records calls2 h
    rw [show brainLoop payload synth total (k + 1) callsMade lastErr
        = (match parse_brain_output (synth callsMade) with
           | .ok (.jobs rs) =>
               (.ok (.jobs (applyHeaderOverride payload rs)), callsMade + 1)
           | .ok (.clarification c) => (.ok (.clarification c), callsMade + 1)
           | .error e => brainLoop payload synth total k (callsMade + 1) (some e))
        from rfl] at h
    rcases hp : parse_brain_output (synth callsMade) with e | out
    · rw [hp] at h
      exact ih (callsMade + 1) (some e) records calls2 h
    · rcases out with rs | c
      · rw [hp] at h
        have h1 := congrArg Prod.fst h
        simp at h1
        exact ⟨callsMade, rs, hp, h1.symm⟩
      · rw [hp] at h
        have h1 := congrArg Prod.fst h
        simp at h1

/-- C3: (i) the header override applied after every successful
validation: each of `comp_type`, `job_group`, `department` of the first
record becomes the corresponding stripped JobPayload field
(`general_group`, `specific_group`, `job_location`, with Arabic-label
fallbacks) whenever that field is nonempty after trimming — regardless
of what the synthesizer produced — and keeps the synthesizer-produced
value whenever the field trims to empty; (ii) every job-record outcome
of `generate_competency_json` is exactly that override applied to some
parsed synthesizer output, so the guarantee covers every successfully
validated CompetencyRecord the pipeline returns. -/
theorem C3_header_override :
    (∀ (payload : JobPayloadR) (job0 : CompetencyJobR) (rest : List CompetencyJobR),
      ((pyStrip (pyOr2 payload.general_group payload.general_group_ar) ≠ [] →
        ((applyHeaderOverride payload (job0 :: rest)).headD job0).comp_type
          = pyStrip (pyOr2 payload.general_group payload.general_group_ar))
      ∧ (pyStrip (pyOr2 payload.general_group payload.general_group_ar) = [] →
        ((applyHeaderOverride payload (job0 :: rest)).headD job0).comp_type
          = job0.comp_type))
      ∧ ((pyStrip (pyOr2 payload.specific_group payload.specific_group_ar) ≠ [] →
        ((applyHeaderOverride payload (job0 :: rest)).headD job0).job_group
          = pyStrip (pyOr2 payload.specific_group payload.specific_group_ar))
      ∧ (pyStrip (pyOr2 payload.specific_group payload.specific_group_ar) = [] →
        ((applyHeaderOverride payload (job0 :: rest)).headD job0).job_group
          = job0.job_group))
      ∧ ((pyStrip (pyOr2 payload.job_location payload.job_location_ar) ≠ [] →
        ((applyHeaderOverride payload (job0 :: rest)).headD job0).department
          = pyStrip (pyOr2 payload.job_location payload.job_location_ar))
      ∧ (pyStrip (pyOr2 payload.job_location payload.job_location_ar) = [] →
        ((applyHeaderOverride payload (job0 :: rest)).headD job0).department
          = job0.department)))
    ∧ (∀ (project : List Char) (payload : JobPayloadR) (retry : Int)
        (synth : Nat → Option JVal) records calls,
        generate_competency_json project payload retry synth
          = (.ok (.jobs records), calls)
        → ∃ i parsed, parse_brain_output (synth i) = .ok (.jobs parsed)
            ∧ records = applyHeaderOverride payload parsed) := by
  constructor
  · intro payload job0 rest
    refine ⟨⟨?_, ?_⟩, ⟨?_, ?_⟩, ⟨?_, ?_⟩⟩ <;> intro h <;>
      simp [applyHeaderOverride, h]
  · intro project payload retry synth records calls h
    unfold generate_competency_json at h
    by_cases hp : project = []
    · rw [if_pos hp] at h
      have h1 := congrArg Prod.fst h
      simp at h1
    · rw [if_neg hp] at h
      exact brainLoop_ok_jobs payload synth _ _ _ _ records calls h

theorem C3_header_override_witness :
    ((applyHeaderOverride payloadW (sampleJobR :: [])).headD sampleJobR).comp_type
        = pyStrip (pyOr2 payloadW.general_group payloadW.general_group_ar)
    ∧ ((applyHeaderOverride payloadW (sampleJobR :: [])).headD sampleJobR).department
        = sampleJobR.department
    ∧ (∃ i parsed,
        parse_brain_output (synthW i) = .ok (.jobs parsed)
        ∧ applyHeaderOverride payloadW [sampleJobR] = applyHeaderOverride payloadW parsed) :=
  ⟨(C3_header_override.1 payloadW sampleJobR []).1.1 (by decide),
   (C3_header_override.1 payloadW sampleJobR []).2.2.2 (by decide),
   C3_header_override.2 "p".data payloadW 0 synthW
     (applyHeaderOverride payloadW [sampleJobR]) 1 (by decide)⟩

/-! ### The renderer (claims C2, C10) -/

theorem mapExcept_err {ε α β : Type} (f : α → Except ε β) (l : List α) (x : α)
    (hx : x ∈ l) (e0 : ε) (hfx : f x = .error e0) :
    ∃ e, mapExcept f l = .error e := by
  induction l with
  | nil => simp at hx
  | cons a t ih =>
    rcases List.mem_cons.mp hx with h | h
    · subst h
      exact ⟨e0, by simp [mapExcept, hfx]⟩
    · rcases hfa : f a with ea | ya
      · exact ⟨ea, by simp [mapExcept, hfa]⟩
      · rcases ih h with ⟨e, he⟩
        exact ⟨e, by simp [mapExcept, hfa, he]⟩

theorem mapExcept_ok_map {ε α β γ : Type} (f : α → Except ε β) (g : β → γ)
    (h2 : α → γ) (hfg : ∀ x y, f x = .ok y → g y = h2 x) :
    ∀ l ys, mapExcept f l = .ok ys → ys.map g = l.map h2 := by
  intro l
  induction l with
  | nil =>
    intro ys h
    simp only [mapExcept] at h
    cases h
    rfl
  | cons a t ih =>
    intro ys h
    simp only [mapExcept] at h
    rcases hfa : f a with ea | ya
    · rw [hfa] at h; cases h
    · rw [hfa] at h
      rcases hmt : mapExcept f t with e | ys2
      · rw [hmt] at h; cases h
      · rw [hmt] at h
        cases h
        simp only [List.map_cons, hfg a ya hfa, ih ys2 hmt]

theorem renderJob_ok_length (tpl : Template) (phs : List (String × Nat))
    (strict : Bool) (job : JobD) (slides : List (List (String × List Char)))
    (h : renderJob tpl phs strict job = .ok slides) :
    slides.length = topicsCount job := by
  unfold renderJob at h
  rcases ht : job.topics with _ | _ | ts
  · rw [ht] at h; cases h
  · rw [ht] at h; cases h
  · rcases ts with _ | ⟨t, ts2⟩
    · rw [ht] at h; cases h
    · rw [ht] at h
      have := mapExcept_ok_map
        (fun topic => writeSlide tpl phs strict (contentMap job topic))
        (fun _ => 1) (fun _ => 1) (fun _ _ _ => rfl) (t :: ts2) slides h
      have hlen := congrArg List.sum this
      simp at hlen
      simp [topicsCount, ht, hlen]
      omega

theorem renderJob_noTopics (tpl : Template) (phs : List (String × Nat))
    (strict : Bool) (job : JobD) (hbad : topicsOk job.topics = false) :
    renderJob tpl phs strict job = .error .noTopics := by
  unfold renderJob
  rcases h : job.topics with _ | _ | ts
  · rfl
  · rfl
  · rcases ts with _ | ⟨t, ts2⟩
    · rfl
    · rw [h] at hbad
      simp [topicsOk] at hbad

/-- C2: in strict mode, a chosen layout missing any required insertion
point makes `generate_competency_slides` fail with precisely the
missing-placeholder error of its pre-flight check, before any slide is
written and regardless of the records passed; an `.error` outcome
raises before `prs.save`, so no output file, not even an incomplete one, is
written.  Moreover the presentation is only saved after every slide of
every topic has been populated: a `.ok` result carries exactly one
slide per topic of every record. -/
theorem C2_strict_missing_placeholder :
    (∀ (tpl : Template) (jobs : List JobD) (layoutName : String) (lay : Layout),
      find_layout tpl layoutName = some lay
      → REQUIRED_PLACEHOLDERS.filter (fun n => !lmHas lay.phs n) ≠ []
      → generate_competency_slides true tpl jobs layoutName true
          = .error (.missingPlaceholders
              (REQUIRED_PLACEHOLDERS.filter (fun n => !lmHas lay.phs n))))
    ∧ (∀ (te : Bool) (tpl : Template) (jobs : List JobD) (ln : String)
        (strict : Bool) (slides : List (List (String × List Char))),
        generate_competency_slides te tpl jobs ln strict = .ok slides
        → slides.length = (jobs.map topicsCount).sum) := by
  constructor
  · intro tpl jobs layoutName lay hlay hmiss
    unfold generate_competency_slides
    rw [if_neg (by simp), hlay]
    simp only []
    rw [if_pos ⟨by trivial, hmiss⟩]
  · intro te tpl jobs ln strict slides h
    unfold generate_competency_slides at h
    by_cases hte : te = false
    · rw [if_pos hte] at h; cases h
    · rw [if_neg hte] at h
      rcases hlay : find_layout tpl ln with _ | lay
      · rw [hlay] at h; cases h
      · rw [hlay] at h
        simp only [] at h
        by_cases hsm : strict = true
            ∧ REQUIRED_PLACEHOLDERS.filter (fun n => !lmHas lay.phs n) ≠ []
        · rw [if_pos hsm] at h; cases h
        · rw [if_neg hsm] at h
          by_cases hj : jobs = []
          · rw [if_pos hj] at h; cases h
          · rw [if_neg hj] at h
            rcases hme : mapExcept (renderJob tpl lay.phs strict) jobs with e | slidess
            · rw [hme] at h; cases h
            · rw [hme] at h
              cases h
              rw [List.length_flatten]
              have := mapExcept_ok_map (renderJob tpl lay.phs strict)
                List.length topicsCount
                (fun x y hxy => renderJob_ok_length tpl lay.phs strict x y hxy)
                jobs slidess hme
              rw [this]

theorem C2_strict_missing_placeholder_witness :
    generate_competency_slides true tplMissingOne [jobW] "Competency_Layout" true
      = .error (.missingPlaceholders
          (REQUIRED_PLACEHOLDERS.filter (fun n => !lmHas layMissingOne.phs n)))
    ∧ ([(contentMap jobW topicW).map (fun p => (p.1, strip_bullet_symbols p.2)),
        (contentMap jobW topicW).map (fun p => (p.1, strip_bullet_symbols p.2))]).length
        = ([jobW].map topicsCount).sum :=
  ⟨C2_strict_missing_placeholder.1 tplMissingOne [jobW] "Competency_Layout"
      layMissingOne (by decide) (by decide),
   C2_strict_missing_placeholder.2 true tplFull [jobW] "Competency_Layout" true
      _ (by decide)⟩

/-- C10: a job record whose `topics` entry is missing, not a list, or an
empty list makes `generate_competency_slides` raise in strict and
non-strict mode alike — the zero-topics check is unconditional — and an
`.error` outcome never reaches `prs.save`, so no output file is written
even when `strict` is false. -/
theorem C10_empty_topics_always_fatal (te : Bool) (tpl : Template)
    (jobs : List JobD) (ln : String) (strict : Bool) (job : JobD)
    (hmem : job ∈ jobs) (hbad : topicsOk job.topics = false) :
    ∃ e, generate_competency_slides te tpl jobs ln strict = .error e := by
  unfold generate_competency_slides
  by_cases hte : te = false
  · exact ⟨.templateNotFound, by rw [if_pos hte]⟩
  · rw [if_neg hte]
    rcases hlay : find_layout tpl ln with _ | lay
    · exact ⟨.noLayouts, rfl⟩
    · simp only []
      by_cases hsm : strict = true
          ∧ REQUIRED_PLACEHOLDERS.filter (fun n => !lmHas lay.phs n) ≠ []
      · exact ⟨.missingPlaceholders _, by rw [if_pos hsm]⟩
      · rw [if_neg hsm]
        by_cases hj : jobs = []
        · exact ⟨.emptyJobs, by rw [if_pos hj]⟩
        · rw [if_neg hj]
          rcases mapExcept_err (renderJob tpl lay.phs strict) jobs job hmem
            .noTopics (renderJob_noTopics tpl lay.phs strict job hbad) with ⟨e, he⟩
          exact ⟨e, by rw [he]⟩

theorem C10_empty_topics_always_fatal_witness :
    ∃ e, generate_competency_slides true tplFull [jobBadTopics]
        "Competency_Layout" false = .error e :=
  C10_empty_topics_always_fatal true tplFull [jobBadTopics] "Competency_Layout"
    false jobBadTopics (by decide) (by decide)

end CBG
